import Mathlib

/-!
Verification of the import-refactoring scripts `fix_memory_imports.py` and
`fix_compilation_errors.py`.

The scripts operate on file contents as text, using a fixed set of regular
expressions.  We embed the file contents as `List Char` and implement each
regex substitution directly: for the specific patterns used by the scripts
(`use\s+paraphym_memory::`, `use\s+crate::(?!memory::)(\w+(?:::\w+)*)`,
`use\s+crate::\{([^}]+)\}`, `^\s*pub\s+mod\s+memory\s*;`,
`^\s*pub\s+mod\s+\w+\s*;`, and the literal pattern of Fix 3) greedy matching
never needs backtracking, so each pattern is implemented as a deterministic
parser returning the replacement and the remaining input, and `re.sub` is
implemented as a left-to-right scan applying the parser at every position.
All functions are structurally recursive (bounded by an explicit fuel where
the recursion is not structural), hence fully executable by the kernel.
-/

set_option maxRecDepth 10000
set_option maxHeartbeats 1000000

/-- ASCII model of Python's `\s` character class (`str.strip()` / `\s`). -/
def isSpaceChar (c : Char) : Bool :=
  c == ' ' || c == '\t' || c == '\n' || c == '\r' || c == '\x0b' || c == '\x0c'

/-- ASCII model of Python's `\w` character class. -/
def isWordChar (c : Char) : Bool :=
  c.isAlphanum || c == '_'

/-- Match a literal token at the head of the input, returning the rest. -/
def lit : List Char → List Char → Option (List Char)
  | [], l => some l
  | _ :: _, [] => none
  | p :: ps, c :: l => if c == p then lit ps l else none

/-- Python `str.startswith`: Boolean prefix test (structural, so that it
reduces definitionally). -/
def startsWithTok : List Char → List Char → Bool
  | [], _ => true
  | _ :: _, [] => false
  | p :: ps, c :: l => c == p && startsWithTok ps l

/-- Python `needle in haystack`: Boolean substring test. -/
def containsTok (needle : List Char) : List Char → Bool
  | [] => needle.isEmpty
  | c :: l => startsWithTok needle (c :: l) || containsTok needle l

/-- Match `\s+` (greedy; the following literal in every pattern used by the
scripts starts with a non-space character, so greedy matching is exact). -/
def spaces1 : List Char → Option (List Char)
  | [] => none
  | c :: l => if isSpaceChar c then some (l.dropWhile isSpaceChar) else none

def useTok : List Char := "use".toList
def crateTok : List Char := "crate::".toList
def crateBraceTok : List Char := "crate::\x7b".toList
def memTok : List Char := "memory::".toList
def memWordTok : List Char := "memory".toList
def errTok : List Char := "Error".toList
def resTok : List Char := "Result".toList
def memSlashTok : List Char := "memory/".toList
def pmTok : List Char := "paraphym_memory::".toList
def pmReplTok : List Char := "use paraphym_candle::memory::".toList
def p1ReplPre : List Char := "use crate::memory::".toList

/-- Parser for the `(?:::\w+)*` part of pattern 1, greedy.  Returns the
consumed characters and the rest; fuel-bounded (each step consumes at least
three characters, so `l.length` fuel suffices). -/
def parseSegsF : Nat → List Char → List Char × List Char
  | 0, l => ([], l)
  | n + 1, l =>
    match l with
    | ':' :: ':' :: c :: r =>
      if isWordChar c then
        (':' :: ':' :: ((c :: r).takeWhile isWordChar ++
            (parseSegsF n ((c :: r).dropWhile isWordChar)).1),
          (parseSegsF n ((c :: r).dropWhile isWordChar)).2)
      else ([], l)
    | _ => ([], l)

def parseSegs (l : List Char) : List Char × List Char :=
  parseSegsF l.length l

/-- One match attempt of pattern 1,
`use\s+crate::(?!memory::)(\w+(?:::\w+)*)`, with replacement
`use crate::memory::\1` (from `transform_internal_memory_imports`).
Returns `(replacement, rest of input)` on success. -/
def matchPattern1 (l : List Char) : Option (List Char × List Char) :=
  match lit useTok l with
  | none => none
  | some r1 =>
    match spaces1 r1 with
    | none => none
    | some r2 =>
      match lit crateTok r2 with
      | none => none
      | some r3 =>
        if startsWithTok memTok r3 then none
        else
          match r3.takeWhile isWordChar with
          | [] => none
          | w =>
            some (p1ReplPre ++ w ++ (parseSegs (r3.dropWhile isWordChar)).1,
              (parseSegs (r3.dropWhile isWordChar)).2)

/-- Python `items.split(',')` on the brace-list text. -/
def splitComma : List Char → List (List Char)
  | [] => [[]]
  | c :: r =>
    if c == ',' then [] :: splitComma r
    else
      match splitComma r with
      | [] => [[c]]
      | h :: tl => (c :: h) :: tl

/-- Python `str.strip()`. -/
def strip (l : List Char) : List Char :=
  ((l.dropWhile isSpaceChar).reverse.dropWhile isSpaceChar).reverse

/-- The per-item rewrite inside `replace2` of
`transform_internal_memory_imports`: prefix with `memory::` unless the item
already starts with `memory::` or is exactly `Error` or `Result`.  (The inner
`if` of the source has identical branches; it is kept for faithfulness.) -/
def replace2Item (item : List Char) : List Char :=
  if !(startsWithTok memTok item) && !(item == errTok || item == resTok) then
    if !(containsTok "::".toList item) || startsWithTok memWordTok item then
      memTok ++ item
    else
      memTok ++ item
  else item

/-- The item-list rewrite of `replace2`: split on every comma, strip each
item, skip empties, rewrite each remaining item. -/
def rewriteItems (inner : List Char) : List (List Char) :=
  ((splitComma inner).map strip).filterMap (fun it =>
    match strip it with
    | [] => none
    | s => some (replace2Item s))

/-- The stripped, nonempty items of the comma split, before the per-item
rewrite (used to state order preservation of the bracketed rewriter). -/
def cleanedItems (inner : List Char) : List (List Char) :=
  ((splitComma inner).map strip).filterMap (fun it =>
    match strip it with
    | [] => none
    | s => some s)

/-- Python `", ".join(...)`. -/
def joinComma : List (List Char) → List Char
  | [] => []
  | [x] => x
  | x :: xs => x ++ ',' :: ' ' :: joinComma xs

/-- One match attempt of pattern 2, `use\s+crate::\{([^}]+)\}`, with the
`replace2` rewrite (from `transform_internal_memory_imports`). -/
def matchPattern2 (l : List Char) : Option (List Char × List Char) :=
  match lit useTok l with
  | none => none
  | some r1 =>
    match spaces1 r1 with
    | none => none
    | some r2 =>
      match lit crateBraceTok r2 with
      | none => none
      | some r3 =>
        match r3.takeWhile (fun c => !(c == '\x7d')) with
        | [] => none
        | inner =>
          match r3.dropWhile (fun c => !(c == '\x7d')) with
          | '\x7d' :: r4 =>
            some ("use crate::\x7b".toList ++ joinComma (rewriteItems inner) ++ ['\x7d'], r4)
          | _ => none

/-- One match attempt of `use\s+paraphym_memory::` with replacement
`use paraphym_candle::memory::` (from `transform_external_imports`). -/
def matchExternal (l : List Char) : Option (List Char × List Char) :=
  match lit useTok l with
  | none => none
  | some r1 =>
    match spaces1 r1 with
    | none => none
    | some r2 =>
      match lit pmTok r2 with
      | none => none
      | some r3 => some (pmReplTok, r3)

/-- `re.sub` as a left-to-right scan: at each position try the matcher; on a
match emit the replacement and continue after the match, otherwise copy one
character.  Fuel-bounded; every matcher used consumes at least one character,
so `l.length` fuel suffices. -/
def substFuel (m : List Char → Option (List Char × List Char)) : Nat → List Char → List Char
  | _, [] => []
  | 0, l => l
  | n + 1, c :: l =>
    match m (c :: l) with
    | some (rep, rest) => rep ++ substFuel m n rest
    | none => c :: substFuel m n l

def subst (m : List Char → Option (List Char × List Char)) (l : List Char) : List Char :=
  substFuel m l.length l

/-- A matcher that always consumes at least one character of its input. -/
def Consuming (m : List Char → Option (List Char × List Char)) : Prop :=
  ∀ l rep rest, m l = some (rep, rest) → rest.length < l.length

/-- `transform_external_imports` from fix_memory_imports.py. -/
def transform_external_imports (content : List Char) : List Char :=
  subst matchExternal content

/-- `transform_internal_memory_imports` from fix_memory_imports.py:
pattern 1 substitution followed by pattern 2 substitution. -/
def transform_internal_memory_imports (content : List Char) : List Char :=
  subst matchPattern2 (subst matchPattern1 content)

/-- Model of `Path.relative_to`: for normalized paths, returns the remainder
when `candle_src` is a proper ancestor of `file_path`, and `none` (modelling
the `ValueError`) otherwise. -/
def relativeTo (file_path candle_src : List Char) : Option (List Char) :=
  if startsWithTok (candle_src ++ ['/']) file_path then
    some (file_path.drop (candle_src.length + 1))
  else none

/-- `is_memory_file` from fix_memory_imports.py: the relative path starts
with `memory/`; a path outside the source root classifies as `false`. -/
def is_memory_file (file_path candle_src : List Char) : Bool :=
  match relativeTo file_path candle_src with
  | none => false
  | some rel => startsWithTok memSlashTok rel

/-- A candidate Rust file: its path and on-disk content, plus flags modelling
whether `read_text` / `write_text` raise. -/
structure RFile where
  path : List Char
  content : List Char
  readOk : Bool
  writeOk : Bool
deriving DecidableEq

/-- The content computed for a file by `process_rust_file` before the
write-back decision: external transform always, internal transform only for
memory files. -/
def transformedContent (candle_src : List Char) (f : RFile) : List Char :=
  if is_memory_file f.path candle_src then
    transform_internal_memory_imports (transform_external_imports f.content)
  else transform_external_imports f.content

/-- `process_rust_file` from fix_memory_imports.py.  Any read error is caught
and reported as `(unchanged file, false)`; the file is written back only when
the transformed content differs from the original read; a write error is
likewise caught and reported as `false`. -/
def process_rust_file (candle_src : List Char) (f : RFile) : RFile × Bool :=
  if f.readOk = false then (f, false)
  else if transformedContent candle_src f ≠ f.content then
    if f.writeOk then ({ f with content := transformedContent candle_src f }, true)
    else (f, false)
  else (f, false)

/-- Match of `^\s*pub\s+mod\s+memory\s*;` at one line-start position. -/
def matchDeclAt (l : List Char) : Bool :=
  match lit "pub".toList (l.dropWhile isSpaceChar) with
  | none => false
  | some r1 =>
    match spaces1 r1 with
    | none => false
    | some r2 =>
      match lit "mod".toList r2 with
      | none => false
      | some r3 =>
        match spaces1 r3 with
        | none => false
        | some r4 =>
          match lit memWordTok r4 with
          | none => false
          | some r5 =>
            match r5.dropWhile isSpaceChar with
            | ';' :: _ => true
            | _ => false

/-- Scan all positions after a newline. -/
def searchDeclGo : List Char → Bool
  | [] => false
  | c :: r => (c == '\n' && matchDeclAt r) || searchDeclGo r

/-- `re.search(r'^\s*pub\s+mod\s+memory\s*;', content, re.MULTILINE)` as a
Boolean: some line-start position matches. -/
def searchDecl (l : List Char) : Bool :=
  matchDeclAt l || searchDeclGo l

/-- Match of `^\s*pub\s+mod\s+\w+\s*;` at one line-start position, returning
the rest of the input after the match. -/
def pubModMatch (l : List Char) : Option (List Char) :=
  match lit "pub".toList (l.dropWhile isSpaceChar) with
  | none => none
  | some r1 =>
    match spaces1 r1 with
    | none => none
    | some r2 =>
      match lit "mod".toList r2 with
      | none => none
      | some r3 =>
        match spaces1 r3 with
        | none => none
        | some r4 =>
          match r4.takeWhile isWordChar with
          | [] => none
          | _ =>
            match (r4.dropWhile isWordChar).dropWhile isSpaceChar with
            | ';' :: r5 => some r5
            | _ => none

/-- `re.finditer` scan for `^\s*pub\s+mod\s+\w+\s*;`: returns the end
position of the last (non-overlapping, left-to-right) match.  Fuel-bounded. -/
def scanPMF : Nat → List Char → Nat → Bool → Option Nat → Option Nat
  | 0, _, _, _, acc => acc
  | _ + 1, [], _, _, acc => acc
  | n + 1, c :: r, pos, atLS, acc =>
    if atLS then
      match pubModMatch (c :: r) with
      | some rest =>
        scanPMF n rest (pos + ((c :: r).length - rest.length)) false
          (some (pos + ((c :: r).length - rest.length)))
      | none => scanPMF n r (pos + 1) (c == '\n') acc
    else scanPMF n r (pos + 1) (c == '\n') acc

def lastPubModEnd (l : List Char) : Option Nat :=
  scanPMF l.length l 0 true none

/-- Python `content.split('\n')`. -/
def splitLines : List Char → List (List Char)
  | [] => [[]]
  | c :: r =>
    if c == '\n' then [] :: splitLines r
    else
      match splitLines r with
      | [] => [[c]]
      | h :: tl => (c :: h) :: tl

/-- Python `'\n'.join(lines)`. -/
def joinLines : List (List Char) → List Char
  | [] => []
  | [x] => x
  | x :: xs => x ++ '\n' :: joinLines xs

/-- Python `list.insert(i, x)` (clamping like Python when `i` is too big). -/
def insertAt {α : Type} (i : Nat) (x : α) (l : List α) : List α :=
  l.take i ++ x :: l.drop i

/-- Condition of the line loop in `add_memory_module_to_lib`: a stripped
line that is nonempty and starts with neither `//` nor `#!`. -/
def isInsertStop (line : List Char) : Bool :=
  !(strip line).isEmpty && !(startsWithTok "//".toList (strip line))
    && !(startsWithTok "#!".toList (strip line))

def findInsertLineGo : List (List Char) → Nat → Nat
  | [], _ => 0
  | l :: ls, i => if isInsertStop l then i else findInsertLineGo ls (i + 1)

/-- The insertion line index of `add_memory_module_to_lib`'s fallback branch
(first line past the leading comment/shebang block, defaulting to 0). -/
def findInsertLine (lines : List (List Char)) : Nat :=
  findInsertLineGo lines 0

def memoryDocLine : List Char :=
  "/// Memory system with cognitive features and vector storage".toList
def memoryDeclLine : List Char := "pub mod memory;".toList
def insStrTok : List Char :=
  "\n/// Memory system with cognitive features and vector storage\npub mod memory;".toList

/-- The content transformation of `add_memory_module_to_lib`: return
unchanged with `false` when `pub mod memory;` is already declared, otherwise
insert the declaration after the last `pub mod X;` (or into the line list
past the leading comments) and return `true`. -/
def addMemoryDecl (content : List Char) : List Char × Bool :=
  if searchDecl content then (content, false)
  else
    match lastPubModEnd content with
    | some pos => (content.take pos ++ insStrTok ++ content.drop pos, true)
    | none =>
      (joinLines (insertAt (findInsertLine (splitLines content) + 2) []
        (insertAt (findInsertLine (splitLines content) + 1) memoryDeclLine
          (insertAt (findInsertLine (splitLines content)) memoryDocLine
            (splitLines content)))), true)

/-- `add_memory_module_to_lib` from fix_memory_imports.py, over the content
of `lib.rs` (`none` models a missing file): a missing file is reported with a
warning and `false`, without raising; otherwise the resulting file state and
the inserted flag are returned. -/
def add_memory_module_to_lib (lib : Option (List Char)) : Option (List Char) × Bool :=
  match lib with
  | none => (none, false)
  | some c => (some (addMemoryDecl c).1, (addMemoryDecl c).2)

/-- `main()` from fix_memory_imports.py: abort (returning `none`) when the
source root is missing, otherwise run the declaration inserter on `lib.rs`
(missing or not) and process every candidate file. -/
def runMain (candle_src_exists : Bool) (candle_src : List Char)
    (lib : Option (List Char)) (rust_files : List RFile) :
    Option ((Option (List Char) × Bool) × List (RFile × Bool)) :=
  if candle_src_exists = false then none
  else some (add_memory_module_to_lib lib, rust_files.map (process_rust_file candle_src))

/-- The literal substitution of Fix 3 in fix_compilation_errors.py. -/
def matchZeroOneOrMany (l : List Char) : Option (List Char × List Char) :=
  match lit "progresshub::types::ZeroOneOrMany::None".toList l with
  | none => none
  | some r => some ("progresshub::types::ZeroOneOrMany::Zero".toList, r)

/-- Fix 3 of fix_compilation_errors.py (`qwen3_coder.rs` rewrite): when the
file exists its content is substituted and the file is written back
unconditionally; the Boolean records whether a write happened. -/
def fix3_qwen3_coder (file : Option (List Char)) : Option (List Char) × Bool :=
  match file with
  | none => (none, false)
  | some c => (some (subst matchZeroOneOrMany c), true)

/-- An unmanaged candidate file whose content the external remap changes. -/
def exFileChanged : RFile :=
  { path := "src/a.rs".toList, content := "use paraphym_memory::x;".toList,
    readOk := true, writeOk := true }

/-- A candidate file whose read raises. -/
def exFileBad : RFile :=
  { path := "src/b.rs".toList, content := "x".toList, readOk := false, writeOk := true }

/-- A managed candidate file (under the `memory/` subtree). -/
def exFileMem : RFile :=
  { path := "src/memory/m.rs".toList, content := "use crate::cognitive::types;".toList,
    readOk := true, writeOk := true }


/-! ### Basic lemmas about the parsing combinators -/

lemma lit_eq_append : ∀ {p l r : List Char}, lit p l = some r → l = p ++ r := by
  intro p
  induction p with
  | nil =>
    intro l r h
    simp only [lit, Option.some.injEq] at h
    simpa using h
  | cons a p ih =>
    intro l r h
    match l with
    | [] => simp [lit] at h
    | c :: l' =>
      simp only [lit] at h
      split at h
      · rename_i hc
        have hc' : c = a := by simpa using hc
        subst hc'
        simpa using ih h
      · simp at h

lemma spaces1_mem {l r : List Char} (h : spaces1 l = some r) :
    ∃ c ∈ l, isSpaceChar c = true := by
  match l with
  | [] => simp [spaces1] at h
  | c :: l' =>
    by_cases hc : isSpaceChar c
    · exact ⟨c, List.mem_cons_self c l', hc⟩
    · simp [spaces1, hc] at h

lemma spaces1_sub {l r : List Char} (h : spaces1 l = some r) : ∀ c ∈ r, c ∈ l := by
  match l with
  | [] => simp [spaces1] at h
  | c :: l' =>
    by_cases hc : isSpaceChar c
    · simp only [spaces1, hc, if_pos, Option.some.injEq] at h
      subst h
      intro d hd
      exact List.mem_cons_of_mem _ ((List.dropWhile_sublist _).subset hd)
    · simp [spaces1, hc] at h

lemma spaces1_length {l r : List Char} (h : spaces1 l = some r) : r.length < l.length := by
  match l with
  | [] => simp [spaces1] at h
  | c :: l' =>
    by_cases hc : isSpaceChar c
    · simp only [spaces1, hc, if_pos, Option.some.injEq] at h
      subst h
      have := (List.dropWhile_sublist (l := l') (p := isSpaceChar)).length_le
      simpa [Nat.lt_succ_iff] using this
    · simp [spaces1, hc] at h

lemma parseSegsF_sound : ∀ (n : Nat) (l m r : List Char),
    parseSegsF n l = (m, r) → m ++ r = l := by
  intro n
  induction n with
  | zero =>
    intro l m r h
    simp only [parseSegsF, Prod.mk.injEq] at h
    simp [← h.1, ← h.2]
  | succ n ih =>
    intro l m r h
    simp only [parseSegsF] at h
    split at h
    · split at h
      · rename_i c' r' hc
        simp only [Prod.mk.injEq] at h
        have hseg := ih _ _ _ (Prod.mk.eta (p := parseSegsF n ((c' :: r').dropWhile isWordChar)) ▸ rfl :
          parseSegsF n ((c' :: r').dropWhile isWordChar) =
            ((parseSegsF n ((c' :: r').dropWhile isWordChar)).1,
             (parseSegsF n ((c' :: r').dropWhile isWordChar)).2))
        rw [← h.1, ← h.2]
        simp only [List.cons_append, List.append_assoc]
        rw [hseg, List.takeWhile_append_dropWhile]
      · simp only [Prod.mk.injEq] at h
        simp [← h.1, ← h.2]
    · simp only [Prod.mk.injEq] at h
      simp [← h.1, ← h.2]

lemma parseSegs_sound (l : List Char) : (parseSegs l).1 ++ (parseSegs l).2 = l :=
  parseSegsF_sound l.length l _ _ rfl


/-! ### The substitution scan -/

lemma substFuel_succ_none {m : List Char → Option (List Char × List Char)} {c : Char}
    {l : List Char} (n : Nat) (h : m (c :: l) = none) :
    substFuel m (n + 1) (c :: l) = c :: substFuel m n l := by
  simp [substFuel, h]

lemma substFuel_succ_some {m : List Char → Option (List Char × List Char)} {c : Char}
    {l rep rest : List Char} (n : Nat) (h : m (c :: l) = some (rep, rest)) :
    substFuel m (n + 1) (c :: l) = rep ++ substFuel m n rest := by
  simp [substFuel, h]

lemma consuming_matchExternal : Consuming matchExternal := by
  intro l rep rest h
  simp only [matchExternal] at h
  split at h
  · simp at h
  · rename_i r1 h1
    split at h
    · simp at h
    · rename_i r2 h2
      split at h
      · simp at h
      · rename_i r3 h3
        simp only [Option.some.injEq, Prod.mk.injEq] at h
        have e1 : l.length = r1.length + 3 := by rw [lit_eq_append h1]; rfl
        have e2 := spaces1_length h2
        have e3 : r2.length = r3.length + 17 := by rw [lit_eq_append h3]; rfl
        have e4 : rest.length = r3.length := by rw [← h.2]
        omega

lemma consuming_matchPattern1 : Consuming matchPattern1 := by
  intro l rep rest h
  simp only [matchPattern1] at h
  split at h
  · simp at h
  · rename_i r1 h1
    split at h
    · simp at h
    · rename_i r2 h2
      split at h
      · simp at h
      · rename_i r3 h3
        split at h
        · simp at h
        · split at h
          · simp at h
          · simp only [Option.some.injEq, Prod.mk.injEq] at h
            have e1 : l.length = r1.length + 3 := by rw [lit_eq_append h1]; rfl
            have e2 := spaces1_length h2
            have e3 : r2.length = r3.length + 7 := by rw [lit_eq_append h3]; rfl
            have e4 : (parseSegs (r3.dropWhile isWordChar)).1.length +
                (parseSegs (r3.dropWhile isWordChar)).2.length =
                (r3.dropWhile isWordChar).length := by
              have := congrArg List.length (parseSegs_sound (r3.dropWhile isWordChar))
              simpa using this
            have e5 : (r3.takeWhile isWordChar).length + (r3.dropWhile isWordChar).length
                = r3.length := by
              have := congrArg List.length
                (List.takeWhile_append_dropWhile (p := isWordChar) (l := r3))
              simp only [List.length_append] at this
              exact this
            have e6 : rest.length = (parseSegs (r3.dropWhile isWordChar)).2.length := by
              rw [← h.2]
            omega

lemma consuming_matchPattern2 : Consuming matchPattern2 := by
  intro l rep rest h
  simp only [matchPattern2] at h
  split at h
  · simp at h
  · rename_i r1 h1
    split at h
    · simp at h
    · rename_i r2 h2
      split at h
      · simp at h
      · rename_i r3 h3
        split at h
        · simp at h
        · split at h
          · rename_i r4 h4
            simp only [Option.some.injEq, Prod.mk.injEq] at h
            have e1 : l.length = r1.length + 3 := by rw [lit_eq_append h1]; rfl
            have e2 := spaces1_length h2
            have e3 : r2.length = r3.length + 8 := by rw [lit_eq_append h3]; rfl
            have e5 : (r3.takeWhile (fun c => !(c == '\x7d'))).length +
                (r3.dropWhile (fun c => !(c == '\x7d'))).length = r3.length := by
              have := congrArg List.length
                (List.takeWhile_append_dropWhile (p := fun c => !(c == '\x7d')) (l := r3))
              simp only [List.length_append] at this
              exact this
            have e4 : (r3.dropWhile (fun c => !(c == '\x7d'))).length = r4.length + 1 := by
              rw [h4]
              rfl
            have e6 : rest.length = r4.length := by rw [← h.2]
            omega
          · simp at h

lemma consuming_matchZeroOneOrMany : Consuming matchZeroOneOrMany := by
  intro l rep rest h
  simp only [matchZeroOneOrMany] at h
  split at h
  · simp at h
  · rename_i r h1
    simp only [Option.some.injEq, Prod.mk.injEq] at h
    have e1 : l.length = r.length + 39 := by rw [lit_eq_append h1]; rfl
    have e2 : rest.length = r.length := by rw [← h.2]
    omega

lemma substFuel_eq_subst {m : List Char → Option (List Char × List Char)}
    (hm : Consuming m) :
    ∀ (n : Nat) (l : List Char), l.length ≤ n → substFuel m n l = subst m l := by
  intro n
  induction n using Nat.strong_induction_on with
  | _ n ih =>
    intro l hl
    match n, l with
    | _, [] =>
      cases n <;> simp [substFuel, subst]
    | 0, c :: l' => simp at hl
    | n + 1, c :: l' =>
      have hl' : l'.length ≤ n := by simpa using hl
      have hsub : subst m (c :: l') = substFuel m (l'.length + 1) (c :: l') := by
        simp [subst]
      cases hmc : m (c :: l') with
      | none =>
        rw [substFuel_succ_none n hmc, hsub, substFuel_succ_none l'.length hmc,
          ih n (Nat.lt_succ_self n) l' hl']
        have hb : substFuel m l'.length l' = subst m l' := rfl
        rw [hb]
      | some pr =>
        obtain ⟨rep, rest⟩ := pr
        have hrest : rest.length ≤ l'.length := by
          have := hm _ _ _ hmc
          simp only [List.length_cons] at this
          omega
        rw [substFuel_succ_some n hmc, hsub, substFuel_succ_some l'.length hmc,
          ih n (Nat.lt_succ_self n) rest (le_trans hrest hl')]
        have hb : substFuel m l'.length rest = subst m rest :=
          ih l'.length (by omega) rest hrest
        rw [hb]

lemma subst_nil (m : List Char → Option (List Char × List Char)) : subst m [] = [] := rfl

lemma subst_cons_none {m : List Char → Option (List Char × List Char)} {c : Char}
    {l : List Char} (h : m (c :: l) = none) : subst m (c :: l) = c :: subst m l := by
  have hsub : subst m (c :: l) = substFuel m (l.length + 1) (c :: l) := by
    simp [subst]
  rw [hsub, substFuel_succ_none l.length h]
  rfl

lemma subst_cons_some {m : List Char → Option (List Char × List Char)} {c : Char}
    {l rep rest : List Char} (hm : Consuming m) (h : m (c :: l) = some (rep, rest)) :
    subst m (c :: l) = rep ++ subst m rest := by
  have hrest : rest.length ≤ l.length := by
    have := hm _ _ _ h
    simp only [List.length_cons] at this
    omega
  have hsub : subst m (c :: l) = substFuel m (l.length + 1) (c :: l) := by
    simp [subst]
  rw [hsub, substFuel_succ_some l.length h,
    substFuel_eq_subst hm l.length rest hrest]

lemma subst_eq_self {m : List Char → Option (List Char × List Char)} :
    ∀ {l : List Char}, (∀ s, s <:+ l → s ≠ [] → m s = none) → subst m l = l := by
  intro l
  induction l with
  | nil => intro _; rfl
  | cons c l' ih =>
    intro h
    rw [subst_cons_none (h (c :: l') (List.suffix_refl _) (by simp))]
    rw [ih (fun s hs hne => h s (hs.trans (List.suffix_cons c l')) hne)]

/-! ### No-match lemmas -/

lemma not_space_of_word {c : Char} (h : isWordChar c = true) : isSpaceChar c = false := by
  by_contra hsp
  rw [Bool.not_eq_false] at hsp
  simp only [isSpaceChar, Bool.or_eq_true, beq_iff_eq] at hsp
  rcases hsp with ((((rfl | rfl) | rfl) | rfl) | rfl) | rfl <;> exact absurd h (by decide)

lemma matchPattern1_none_of_nospace {l : List Char}
    (h : ∀ c ∈ l, isSpaceChar c = false) : matchPattern1 l = none := by
  simp only [matchPattern1]
  split
  · rfl
  · rename_i r1 h1
    split
    · rfl
    · rename_i r2 h2
      exfalso
      obtain ⟨d, hd, hsp⟩ := spaces1_mem h2
      have hdl : d ∈ l := by
        rw [lit_eq_append h1]
        exact List.mem_append_right _ hd
      rw [h d hdl] at hsp
      exact Bool.false_ne_true hsp

lemma matchPattern2_none_of_nospace {l : List Char}
    (h : ∀ c ∈ l, isSpaceChar c = false) : matchPattern2 l = none := by
  simp only [matchPattern2]
  split
  · rfl
  · rename_i r1 h1
    split
    · rfl
    · rename_i r2 h2
      exfalso
      obtain ⟨d, hd, hsp⟩ := spaces1_mem h2
      have hdl : d ∈ l := by
        rw [lit_eq_append h1]
        exact List.mem_append_right _ hd
      rw [h d hdl] at hsp
      exact Bool.false_ne_true hsp

/-- Nonempty suffixes of `a ++ t` are suffixes of `t` or of the form
`a' ++ t` with `a'` a nonempty suffix of `a`. -/
lemma suffix_append_cases {s a t : List Char} (h : s <:+ a ++ t) :
    s <:+ t ∨ ∃ a', a' <:+ a ∧ a' ≠ [] ∧ s = a' ++ t := by
  induction a with
  | nil => left; simpa using h
  | cons c a' ih =>
    rw [List.cons_append, List.suffix_cons_iff] at h
    rcases h with rfl | h
    · right
      exact ⟨c :: a', List.suffix_refl _, by simp, by simp⟩
    · rcases ih h with h' | ⟨b, hb, hbne, rfl⟩
      · left; exact h'
      · right
        exact ⟨b, hb.trans (List.suffix_cons c a'), hbne, rfl⟩

/-- Neither internal pattern matches at any position of
`use crate::memory::` followed by space-free text: the position at the
start fails the `(?!memory::)` lookahead (pattern 1) or the `crate::{`
literal (pattern 2), every other position lacks `use` followed by
whitespace. -/
lemma pattern12_none_of_pfx {t : List Char} (ht : ∀ c ∈ t, isSpaceChar c = false) :
    ∀ s, s <:+ (p1ReplPre ++ t) → s ≠ [] →
      matchPattern1 s = none ∧ matchPattern2 s = none := by
  have hpfx : p1ReplPre ++ t = 'u' :: 's' :: 'e' :: ' ' :: 'c' :: 'r' :: 'a' :: 't' ::
      'e' :: ':' :: ':' :: 'm' :: 'e' :: 'm' :: 'o' :: 'r' :: 'y' :: ':' :: ':' :: t := rfl
  rw [hpfx]
  intro s hs _
  rw [List.suffix_cons_iff] at hs
  rcases hs with rfl | hs
  · exact ⟨rfl, rfl⟩
  rw [List.suffix_cons_iff] at hs
  rcases hs with rfl | hs
  · exact ⟨rfl, rfl⟩
  rw [List.suffix_cons_iff] at hs
  rcases hs with rfl | hs
  · exact ⟨rfl, rfl⟩
  rw [List.suffix_cons_iff] at hs
  rcases hs with rfl | hs
  · exact ⟨rfl, rfl⟩
  rw [List.suffix_cons_iff] at hs
  rcases hs with rfl | hs
  · exact ⟨rfl, rfl⟩
  rw [List.suffix_cons_iff] at hs
  rcases hs with rfl | hs
  · exact ⟨rfl, rfl⟩
  rw [List.suffix_cons_iff] at hs
  rcases hs with rfl | hs
  · exact ⟨rfl, rfl⟩
  rw [List.suffix_cons_iff] at hs
  rcases hs with rfl | hs
  · exact ⟨rfl, rfl⟩
  rw [List.suffix_cons_iff] at hs
  rcases hs with rfl | hs
  · exact ⟨rfl, rfl⟩
  rw [List.suffix_cons_iff] at hs
  rcases hs with rfl | hs
  · exact ⟨rfl, rfl⟩
  rw [List.suffix_cons_iff] at hs
  rcases hs with rfl | hs
  · exact ⟨rfl, rfl⟩
  rw [List.suffix_cons_iff] at hs
  rcases hs with rfl | hs
  · exact ⟨rfl, rfl⟩
  rw [List.suffix_cons_iff] at hs
  rcases hs with rfl | hs
  · exact ⟨rfl, rfl⟩
  rw [List.suffix_cons_iff] at hs
  rcases hs with rfl | hs
  · exact ⟨rfl, rfl⟩
  rw [List.suffix_cons_iff] at hs
  rcases hs with rfl | hs
  · exact ⟨rfl, rfl⟩
  rw [List.suffix_cons_iff] at hs
  rcases hs with rfl | hs
  · exact ⟨rfl, rfl⟩
  rw [List.suffix_cons_iff] at hs
  rcases hs with rfl | hs
  · exact ⟨rfl, rfl⟩
  rw [List.suffix_cons_iff] at hs
  rcases hs with rfl | hs
  · exact ⟨rfl, rfl⟩
  rw [List.suffix_cons_iff] at hs
  rcases hs with rfl | hs
  · exact ⟨rfl, rfl⟩
  constructor
  · exact matchPattern1_none_of_nospace (fun c hc => ht c (hs.subset hc))
  · exact matchPattern2_none_of_nospace (fun c hc => ht c (hs.subset hc))

/-- `transform_internal_memory_imports` leaves `use crate::memory::`
followed by space-free text unchanged. -/
lemma internal_fixed_of_pfx {t : List Char} (ht : ∀ c ∈ t, isSpaceChar c = false) :
    transform_internal_memory_imports (p1ReplPre ++ t) = p1ReplPre ++ t := by
  unfold transform_internal_memory_imports
  rw [subst_eq_self (fun s hs hne => (pattern12_none_of_pfx ht s hs hne).1),
    subst_eq_self (fun s hs hne => (pattern12_none_of_pfx ht s hs hne).2)]

/-! ### The simple internal remap on a single statement -/

lemma matchPattern1_use_crate (r3 : List Char) :
    matchPattern1 ('u' :: 's' :: 'e' :: ' ' :: 'c' :: 'r' :: 'a' :: 't' :: 'e' ::
      ':' :: ':' :: r3) =
      (if startsWithTok memTok r3 then none
       else
         match r3.takeWhile isWordChar with
         | [] => none
         | w => some (p1ReplPre ++ w ++ (parseSegs (r3.dropWhile isWordChar)).1,
             (parseSegs (r3.dropWhile isWordChar)).2)) := rfl

/-- Pattern 1 rewrites a simple `use crate::<path>;` statement whose path
starts with a word character and consists of word characters and colons,
and whose text after `crate::` does not start with `memory::`, into
`use crate::memory::<path>;`; a second application leaves the result
unchanged. -/
lemma internal_simple_remap (c : Char) (p' : List Char)
    (hw : isWordChar c = true)
    (hwc : ∀ d ∈ c :: p', (isWordChar d || d == ':') = true)
    (hmem : startsWithTok memTok ((c :: p') ++ [';']) = false) :
    transform_internal_memory_imports ('u' :: 's' :: 'e' :: ' ' :: 'c' :: 'r' :: 'a' ::
        't' :: 'e' :: ':' :: ':' :: ((c :: p') ++ [';'])) =
      p1ReplPre ++ ((c :: p') ++ [';']) ∧
    transform_internal_memory_imports (p1ReplPre ++ ((c :: p') ++ [';'])) =
      p1ReplPre ++ ((c :: p') ++ [';']) := by
  have htns : ∀ d ∈ (c :: p') ++ [';'], isSpaceChar d = false := by
    intro d hd
    rcases List.mem_append.1 hd with hdp | hds
    · have hor : isWordChar d = true ∨ d = ':' := by simpa using hwc d hdp
      rcases hor with hdw | hdc'
      · exact not_space_of_word hdw
      · subst hdc'; rfl
    · have hds' : d = ';' := by simpa using hds
      subst hds'; rfl
  refine ⟨?_, internal_fixed_of_pfx htns⟩
  have htw : ((c :: p') ++ [';']).takeWhile isWordChar =
      c :: (p' ++ [';']).takeWhile isWordChar := by
    rw [List.cons_append]
    exact List.takeWhile_cons_of_pos hw
  have hm1 : matchPattern1 ('u' :: 's' :: 'e' :: ' ' :: 'c' :: 'r' :: 'a' :: 't' :: 'e' ::
      ':' :: ':' :: ((c :: p') ++ [';'])) =
      some (p1ReplPre ++ ((c :: p') ++ [';']).takeWhile isWordChar ++
          (parseSegs (((c :: p') ++ [';']).dropWhile isWordChar)).1,
        (parseSegs (((c :: p') ++ [';']).dropWhile isWordChar)).2) := by
    rw [matchPattern1_use_crate, hmem]
    rw [if_neg Bool.false_ne_true, htw]
  have hrest_sub : ∀ d ∈ (parseSegs (((c :: p') ++ [';']).dropWhile isWordChar)).2,
      d ∈ (c :: p') ++ [';'] := by
    intro d hd
    have h1 := parseSegs_sound (((c :: p') ++ [';']).dropWhile isWordChar)
    have h2 : d ∈ ((c :: p') ++ [';']).dropWhile isWordChar := by
      rw [← h1]
      exact List.mem_append_right _ hd
    exact (List.dropWhile_sublist _).subset h2
  have hrest_fix : subst matchPattern1
      ((parseSegs (((c :: p') ++ [';']).dropWhile isWordChar)).2) =
      (parseSegs (((c :: p') ++ [';']).dropWhile isWordChar)).2 :=
    subst_eq_self (fun s hs _ =>
      matchPattern1_none_of_nospace (fun d hd => htns d (hrest_sub d (hs.subset hd))))
  have hsplit : ((c :: p') ++ [';']).takeWhile isWordChar ++
      ((parseSegs (((c :: p') ++ [';']).dropWhile isWordChar)).1 ++
        (parseSegs (((c :: p') ++ [';']).dropWhile isWordChar)).2) = (c :: p') ++ [';'] := by
    rw [parseSegs_sound, List.takeWhile_append_dropWhile]
  have hstep1 : subst matchPattern1 ('u' :: 's' :: 'e' :: ' ' :: 'c' :: 'r' :: 'a' ::
      't' :: 'e' :: ':' :: ':' :: ((c :: p') ++ [';'])) = p1ReplPre ++ ((c :: p') ++ [';']) := by
    rw [subst_cons_some consuming_matchPattern1 hm1, hrest_fix]
    simp only [List.append_assoc]
    rw [hsplit]
  unfold transform_internal_memory_imports
  rw [hstep1]
  exact subst_eq_self (fun s hs hne => (pattern12_none_of_pfx htns s hs hne).2)

/-! ### Declaration-inserter lemmas -/

lemma matchDeclAt_decl (t : List Char) :
    matchDeclAt ("pub mod memory;".toList ++ t) = true := rfl

lemma searchDeclGo_append (a r : List Char) (h : matchDeclAt r = true) :
    searchDeclGo (a ++ '\n' :: r) = true := by
  induction a with
  | nil => simp [searchDeclGo, h]
  | cons c a' ih => simp [searchDeclGo, ih]

lemma searchDecl_append (a r : List Char) (h : matchDeclAt r = true) :
    searchDecl (a ++ '\n' :: r) = true := by
  simp [searchDecl, searchDeclGo_append a r h]

lemma joinLines_append (l1 l2 : List (List Char)) (h1 : l1 ≠ []) (h2 : l2 ≠ []) :
    joinLines (l1 ++ l2) = joinLines l1 ++ '\n' :: joinLines l2 := by
  induction l1 with
  | nil => exact absurd rfl h1
  | cons x l1' ih =>
    match l1' with
    | [] =>
      match l2 with
      | y :: l2' => simp [joinLines]
    | z :: l1'' =>
      have ih' := ih (by simp)
      calc joinLines ((x :: z :: l1'') ++ l2)
          = x ++ '\n' :: joinLines ((z :: l1'') ++ l2) := rfl
        _ = x ++ '\n' :: (joinLines (z :: l1'') ++ '\n' :: joinLines l2) := by rw [ih']
        _ = (x ++ '\n' :: joinLines (z :: l1'')) ++ '\n' :: joinLines l2 := by
              simp [List.append_assoc]
        _ = joinLines (x :: z :: l1'') ++ '\n' :: joinLines l2 := rfl

lemma insertAt_zero {α : Type} (x : α) (l : List α) : insertAt 0 x l = x :: l := by
  simp [insertAt]

lemma insertAt_succ_cons {α : Type} (n : Nat) (x a : α) (l : List α) :
    insertAt (n + 1) x (a :: l) = a :: insertAt n x l := by
  simp [insertAt]

lemma insertAt_three {α : Type} (x y z : α) :
    ∀ (l : List α) (i : Nat), i ≤ l.length →
      insertAt (i + 2) z (insertAt (i + 1) y (insertAt i x l)) =
        l.take i ++ x :: y :: z :: l.drop i := by
  intro l
  induction l with
  | nil =>
    intro i hi
    have hz : i = 0 := Nat.le_zero.1 (by simpa using hi)
    subst hz
    simp [insertAt]
  | cons a l' ih =>
    intro i hi
    match i with
    | 0 => simp [insertAt]
    | i' + 1 =>
      have hi' : i' ≤ l'.length := by simpa using hi
      rw [insertAt_succ_cons, insertAt_succ_cons, insertAt_succ_cons, ih i' hi']
      simp

lemma findInsertLineGo_le : ∀ (ls : List (List Char)) (i : Nat),
    findInsertLineGo ls i ≤ i + ls.length := by
  intro ls
  induction ls with
  | nil => intro i; simp [findInsertLineGo]
  | cons l ls' ih =>
    intro i
    simp only [findInsertLineGo]
    split
    · simp
    · have := ih (i + 1)
      simp only [List.length_cons]
      omega

lemma findInsertLine_le (lines : List (List Char)) :
    findInsertLine lines ≤ lines.length := by
  simpa using findInsertLineGo_le lines 0

lemma addMemoryDecl_noop {content : List Char} (h : searchDecl content = true) :
    addMemoryDecl content = (content, false) := by
  unfold addMemoryDecl
  rw [h, if_pos rfl]

lemma addMemoryDecl_inserts (content : List Char) (h : searchDecl content = false) :
    searchDecl (addMemoryDecl content).1 = true := by
  unfold addMemoryDecl
  rw [h, if_neg Bool.false_ne_true]
  cases hpm : lastPubModEnd content with
  | some pos =>
    have hins : insStrTok = '\n' :: (memoryDocLine ++ '\n' :: memoryDeclLine) := rfl
    have hshape : content.take pos ++ insStrTok ++ content.drop pos =
        (content.take pos ++ '\n' :: memoryDocLine) ++
          '\n' :: (memoryDeclLine ++ content.drop pos) := by
      simp [hins, List.append_assoc, List.cons_append]
    simp only []
    rw [hshape]
    exact searchDecl_append _ _ (matchDeclAt_decl _)
  | none =>
    simp only []
    rw [insertAt_three memoryDocLine memoryDeclLine [] (splitLines content)
      (findInsertLine (splitLines content)) (findInsertLine_le (splitLines content))]
    have h1 : (splitLines content).take (findInsertLine (splitLines content)) ++
        memoryDocLine :: memoryDeclLine :: [] ::
          (splitLines content).drop (findInsertLine (splitLines content)) =
        ((splitLines content).take (findInsertLine (splitLines content)) ++ [memoryDocLine]) ++
          (memoryDeclLine :: [] ::
            (splitLines content).drop (findInsertLine (splitLines content))) := by
      simp
    rw [h1, joinLines_append _ _ (by simp) (by simp)]
    have h2 : joinLines (memoryDeclLine :: [] ::
        (splitLines content).drop (findInsertLine (splitLines content))) =
        memoryDeclLine ++ '\n' :: joinLines ([] ::
          (splitLines content).drop (findInsertLine (splitLines content))) := by
      simp [joinLines]
    rw [h2]
    exact searchDecl_append _ _ (matchDeclAt_decl _)

lemma addMemoryDecl_true (content : List Char) (h : searchDecl content = false) :
    (addMemoryDecl content).2 = true := by
  unfold addMemoryDecl
  rw [h, if_neg Bool.false_ne_true]
  cases lastPubModEnd content <;> simp

/-! ### Item-split lemmas -/

lemma splitComma_no_comma : ∀ {l : List Char}, ¬ ',' ∈ l → splitComma l = [l] := by
  intro l
  induction l with
  | nil => intro _; rfl
  | cons c l' ih =>
    intro h
    have hc : ¬ ((c == ',') = true) := by
      simp only [beq_iff_eq]
      intro e
      exact h (by simp [e])
    have ih' := ih (fun hm => h (List.mem_cons_of_mem _ hm))
    simp only [splitComma]
    rw [if_neg hc, ih']

lemma splitComma_append : ∀ {pre post : List Char}, ¬ ',' ∈ pre → ¬ ',' ∈ post →
    splitComma (pre ++ ',' :: post) = [pre, post] := by
  intro pre
  induction pre with
  | nil =>
    intro post _ hpost
    simp only [List.nil_append, splitComma]
    rw [if_pos (by simp), splitComma_no_comma hpost]
  | cons c pre' ih =>
    intro post hpre hpost
    have hc : ¬ ((c == ',') = true) := by
      simp only [beq_iff_eq]
      intro e
      exact hpre (by simp [e])
    have ih' := ih (fun hm => hpre (List.mem_cons_of_mem _ hm)) hpost
    simp only [List.cons_append, splitComma, List.append_eq]
    rw [if_neg hc, ih']

/-! ### Order preservation of the bracketed rewriter -/

lemma replace2Item_cases (s : List Char) :
    replace2Item s = s ∨ replace2Item s = memTok ++ s := by
  unfold replace2Item
  split
  · split
    · right; rfl
    · right; rfl
  · left; rfl

lemma rewriteItems_forall2 (inner : List Char) :
    List.Forall₂ (fun a b => b = a ∨ b = memTok ++ a)
      (cleanedItems inner) (rewriteItems inner) := by
  unfold cleanedItems rewriteItems
  generalize (splitComma inner).map strip = L
  induction L with
  | nil => exact List.Forall₂.nil
  | cons it L' ih =>
    simp only [List.filterMap_cons]
    cases hs : strip it with
    | nil => exact ih
    | cons a s' =>
      exact List.Forall₂.cons (replace2Item_cases (a :: s')) ih

/-! ### Per-file write-back behaviour -/

lemma process_content (src : List Char) (f : RFile) (hr : f.readOk = true)
    (hw : f.writeOk = true) :
    (process_rust_file src f).1.content = transformedContent src f := by
  by_cases hc : transformedContent src f = f.content
  · simp [process_rust_file, hr, hc]
  · simp [process_rust_file, hr, hw, hc]

/-! ### The claims -/

/-- Claim C1: the spec asserts that applying the full rule set twice equals
applying it once, and the guards of the code show this is the intent; the
code violates it.  On the managed-file content `use crate::use crate::a`,
pattern 1 matches `use crate::use` (the path captured is the identifier
`use`), producing `use crate::memory::use crate::a`; the second application
then finds the newly exposed `use crate::a` and rewrites again, so the
second application is not a no-op. -/
theorem claim1_idempotency_failure :
    transform_external_imports "use crate::use crate::a".toList =
      "use crate::use crate::a".toList ∧
    transform_internal_memory_imports (transform_external_imports
      "use crate::use crate::a".toList) =
      "use crate::memory::use crate::a".toList ∧
    transform_internal_memory_imports (transform_external_imports
      (transform_internal_memory_imports (transform_external_imports
        "use crate::use crate::a".toList))) =
      "use crate::memory::use crate::memory::a".toList ∧
    transform_internal_memory_imports (transform_external_imports
      (transform_internal_memory_imports (transform_external_imports
        "use crate::use crate::a".toList))) ≠
      transform_internal_memory_imports (transform_external_imports
        "use crate::use crate::a".toList) :=
  ⟨by decide, by decide, by decide, by decide⟩

/-- Claim C2 (counterexample): the simple internal remap has no
reserved-name exclusion: `use crate::Error;` is rewritten to
`use crate::memory::Error;`, contradicting the claim that `Error` is never
nested by the simple rule. -/
theorem claim2_counterexample :
    transform_internal_memory_imports "use crate::Error;".toList ≠
      "use crate::Error;".toList ∧
    transform_internal_memory_imports "use crate::Error;".toList =
      "use crate::memory::Error;".toList :=
  ⟨by decide, by decide⟩

/-- Claim C2 (amended): in a managed file, a simple internal reference
`use crate::<path>;` whose path starts with a word character and consists of
word characters and colons is rewritten to `use crate::memory::<path>;`
whenever the text after `crate::` does not begin with the literal
`memory::`; the reserved names are NOT exempted by this rule.  Re-running
the transformation on the output leaves it unchanged. -/
theorem claim2_simple_remap (c : Char) (p' : List Char)
    (hw : isWordChar c = true)
    (hwc : ∀ d ∈ c :: p', (isWordChar d || d == ':') = true)
    (hmem : startsWithTok memTok ((c :: p') ++ [';']) = false) :
    transform_internal_memory_imports ("use crate::".toList ++ (c :: p') ++ [';']) =
      "use crate::memory::".toList ++ (c :: p') ++ [';'] ∧
    transform_internal_memory_imports ("use crate::memory::".toList ++ (c :: p') ++ [';']) =
      "use crate::memory::".toList ++ (c :: p') ++ [';'] := by
  have h := internal_simple_remap c p' hw hwc hmem
  exact ⟨h.1, h.2⟩

/-- Claim C2 (witness): the spec's example `use crate::cognitive::types;`
becomes `use crate::memory::cognitive::types;`, idempotently. -/
theorem claim2_witness :
    transform_internal_memory_imports ("use crate::".toList ++
        ('c' :: "ognitive::types".toList) ++ [';']) =
      "use crate::memory::".toList ++ ('c' :: "ognitive::types".toList) ++ [';'] ∧
    transform_internal_memory_imports ("use crate::memory::".toList ++
        ('c' :: "ognitive::types".toList) ++ [';']) =
      "use crate::memory::".toList ++ ('c' :: "ognitive::types".toList) ++ [';'] :=
  claim2_simple_remap 'c' "ognitive::types".toList (by decide) (by decide) (by decide)

/-- Claim C3: an item of a bracketed statement is left unchanged by the
per-item rewrite exactly when it already starts with `memory::` or equals
`Error` or `Result`; on the spec's example the reserved item is kept and the
other item is prefixed. -/
theorem claim3_item_classification :
    (∀ item : List Char, replace2Item item = item ↔
      (startsWithTok memTok item = true ∨ item = errTok ∨ item = resTok)) ∧
    transform_internal_memory_imports
        "use crate::\x7bError, manager::Store\x7d;".toList =
      "use crate::\x7bError, memory::manager::Store\x7d;".toList := by
  constructor
  · intro item
    constructor
    · intro h
      by_contra hneg
      push_neg at hneg
      obtain ⟨h1, h2, h3⟩ := hneg
      have hs : startsWithTok memTok item = false := by
        cases hb : startsWithTok memTok item
        · rfl
        · exact absurd hb h1
      have he : (item == errTok) = false := by simp [h2]
      have hr : (item == resTok) = false := by simp [h3]
      rw [replace2Item, hs, he, hr] at h
      simp only [Bool.not_false, Bool.or_self, Bool.and_self, if_true] at h
      have hmem8 : memTok.length = 8 := rfl
      have hlen := congrArg List.length h
      split at hlen <;>
        · rw [List.length_append, hmem8] at hlen
          omega
    · intro h
      rcases h with h | h | h
      · simp [replace2Item, h]
      · subst h
        simp [replace2Item]
      · subst h
        simp [replace2Item]
  · decide

/-- Claim C4: the bracketed rewriter splits the item text at every comma,
regardless of bracket nesting, and a nested-bracket statement is silently
rewritten from the mis-split pieces rather than rejected. -/
theorem claim4_flat_split :
    (∀ pre post : List Char, ¬ ',' ∈ pre → ¬ ',' ∈ post →
      splitComma (pre ++ ',' :: post) = [pre, post]) ∧
    transform_internal_memory_imports "use crate::\x7ba::\x7bb, c\x7d, d\x7d;".toList =
      "use crate::\x7bmemory::a::\x7bb, memory::c\x7d, d\x7d;".toList :=
  ⟨fun _ _ h1 h2 => splitComma_append h1 h2, by decide⟩

/-- Claim C4 (witness): the comma inside the nested brackets of
`a::{b, c` splits the text into `a::{b` and ` c`. -/
theorem claim4_witness :
    splitComma ("a::\x7bb".toList ++ ',' :: " c".toList) =
      ["a::\x7bb".toList, " c".toList] :=
  claim4_flat_split.1 "a::\x7bb".toList " c".toList (by decide) (by decide)

/-- Claim C5 (counterexample): a missing anchor file `lib.rs` is NOT fatal:
with the source root present and the anchor missing, the run still processes
candidate files and mutates one, contradicting the claim that a missing
anchor is surfaced before any file is mutated. -/
theorem claim5_counterexample :
    runMain true "src".toList none [exFileChanged] =
      some ((none, false),
        [({ exFileChanged with content := "use paraphym_candle::memory::x;".toList },
          true)]) ∧
    "use paraphym_candle::memory::x;".toList ≠ exFileChanged.content :=
  ⟨by decide, by decide⟩

/-- Claim C5 (amended): only a missing source root is fatal and aborts
before any file is processed; a missing anchor file is reported with a
warning, returns `false`, and the run continues; a read failure on one
candidate file leaves that file unchanged while every other file is still
processed. -/
theorem claim5_error_policy :
    (∀ (src : List Char) (lib : Option (List Char)) (files : List RFile),
      runMain false src lib files = none) ∧
    (∀ (src : List Char) (lib : Option (List Char)) (pre post : List RFile) (f : RFile),
      f.readOk = false →
      runMain true src lib (pre ++ f :: post) =
        some (add_memory_module_to_lib lib,
          pre.map (process_rust_file src) ++
            (f, false) :: post.map (process_rust_file src))) ∧
    (∀ (src : List Char) (files : List RFile),
      runMain true src none files =
        some ((none, false), files.map (process_rust_file src))) := by
  refine ⟨fun src lib files => by simp [runMain], ?_,
    fun src files => by simp [runMain, add_memory_module_to_lib]⟩
  intro src lib pre post f hf
  simp [runMain, List.map_append, process_rust_file, hf]

/-- Claim C5 (witness): a single unreadable candidate is reported unchanged
and the pass still completes. -/
theorem claim5_witness :
    runMain true "src".toList none ([] ++ exFileBad :: []) =
      some (add_memory_module_to_lib none,
        ([] : List RFile).map (process_rust_file "src".toList) ++
          (exFileBad, false) ::
            ([] : List RFile).map (process_rust_file "src".toList)) :=
  claim5_error_policy.2.1 "src".toList none [] [] exFileBad rfl

/-- Claim C6 (counterexample): Fix 3 of fix_compilation_errors.py writes the
file back even when the substitution changed nothing: on content with no
occurrence of the pattern, the write flag is `true` while the content is
unchanged, contradicting the claim that every processed file is written back
only if its final content differs. -/
theorem claim6_counterexample :
    fix3_qwen3_coder (some "fn main() \x7b\x7d".toList) =
      (some "fn main() \x7b\x7d".toList, true) := by decide

/-- Claim C6 (amended): `process_rust_file` writes a candidate file back
exactly when its transformed content differs from the original read, and
leaves an unchanged file untouched; but Fix 3 of the compilation-error
script writes its target file unconditionally whenever the file exists. -/
theorem claim6_write_policy :
    (∀ (src : List Char) (f : RFile), f.readOk = true → f.writeOk = true →
      (((process_rust_file src f).2 = true) ↔
        transformedContent src f ≠ f.content) ∧
      (transformedContent src f = f.content → process_rust_file src f = (f, false))) ∧
    (∀ c : List Char, (fix3_qwen3_coder (some c)).2 = true) := by
  constructor
  · intro src f hr hw
    constructor
    · by_cases hc : transformedContent src f = f.content
      · simp [process_rust_file, hr, hc]
      · simp [process_rust_file, hr, hw, hc]
    · intro hc
      simp [process_rust_file, hr, hc]
  · intro c
    rfl

/-- Claim C6 (witness): the write-back equivalence at a concrete changed
file, and the unconditional Fix 3 write at concrete content. -/
theorem claim6_witness :
    ((process_rust_file "src".toList exFileChanged).2 = true ↔
      transformedContent "src".toList exFileChanged ≠ exFileChanged.content) ∧
    (fix3_qwen3_coder (some "abc".toList)).2 = true :=
  ⟨(claim6_write_policy.1 "src".toList exFileChanged rfl rfl).1,
    claim6_write_policy.2 "abc".toList⟩

/-- Claim C7: the bracketed rewriter maps each stripped nonempty item in
place: the rewritten list relates pointwise (same length, same order) to the
cleaned original items, each rewritten item being the original or the
original with the `memory::` prefix; the spec's three-item example keeps its
order. -/
theorem claim7_order_preservation :
    (∀ inner : List Char,
      List.Forall₂ (fun a b => b = a ∨ b = memTok ++ a)
        (cleanedItems inner) (rewriteItems inner)) ∧
    transform_internal_memory_imports "use crate::\x7bA, sub::B, C\x7d;".toList =
      "use crate::\x7bmemory::A, memory::sub::B, memory::C\x7d;".toList :=
  ⟨rewriteItems_forall2, by decide⟩

/-- Claim C8: the external remap is the whole transformation for an
unmanaged file; the internal remaps run (after the external one) exactly for
files the classifier accepts; and the classifier returns `false`, without
raising, for a path outside the source root. -/
theorem claim8_isolation :
    (∀ (src : List Char) (f : RFile), f.readOk = true → f.writeOk = true →
      (is_memory_file f.path src = false →
        (process_rust_file src f).1.content = transform_external_imports f.content) ∧
      (is_memory_file f.path src = true →
        (process_rust_file src f).1.content =
          transform_internal_memory_imports (transform_external_imports f.content))) ∧
    (∀ p r : List Char, startsWithTok (r ++ ['/']) p = false →
      is_memory_file p r = false) := by
  constructor
  · intro src f hr hw
    constructor
    · intro hm
      rw [process_content src f hr hw]
      simp [transformedContent, hm]
    · intro hm
      rw [process_content src f hr hw]
      simp [transformedContent, hm]
  · intro p r h
    simp [is_memory_file, relativeTo, h]

/-- Claim C8 (witness): an unmanaged file receives only the external remap,
a managed file receives both, and a path outside the root classifies as
unmanaged. -/
theorem claim8_witness :
    (process_rust_file "src".toList exFileChanged).1.content =
      transform_external_imports exFileChanged.content ∧
    (process_rust_file "src".toList exFileMem).1.content =
      transform_internal_memory_imports
        (transform_external_imports exFileMem.content) ∧
    is_memory_file "other/memory/x.rs".toList "src".toList = false :=
  ⟨(claim8_isolation.1 "src".toList exFileChanged rfl rfl).1 (by decide),
    (claim8_isolation.1 "src".toList exFileMem rfl rfl).2 (by decide),
    claim8_isolation.2 "other/memory/x.rs".toList "src".toList (by decide)⟩

/-- Claim C9: if a line matching `pub mod memory;` (up to whitespace) is
already present the inserter is a no-op returning `false`; otherwise it
inserts and returns `true`; and running the inserter twice on any anchor
content inserts the declaration exactly once: the second run is always a
no-op returning `false`. -/
theorem claim9_single_insertion (content : List Char) :
    (searchDecl content = true → addMemoryDecl content = (content, false)) ∧
    (searchDecl content = false → (addMemoryDecl content).2 = true) ∧
    addMemoryDecl (addMemoryDecl content).1 = ((addMemoryDecl content).1, false) := by
  refine ⟨fun h => addMemoryDecl_noop h, fun h => addMemoryDecl_true content h, ?_⟩
  by_cases h : searchDecl content
  · rw [addMemoryDecl_noop h]
    exact addMemoryDecl_noop h
  · have h' : searchDecl content = false := by simpa using h
    exact addMemoryDecl_noop (addMemoryDecl_inserts content h')

/-- Claim C9 (witness): a file already declaring the module is left alone
with `false`; a file without the declaration gets it inserted with `true`. -/
theorem claim9_witness :
    addMemoryDecl "pub mod memory;".toList = ("pub mod memory;".toList, false) ∧
    (addMemoryDecl "fn main() \x7b\x7d".toList).2 = true :=
  ⟨(claim9_single_insertion "pub mod memory;".toList).1 (by decide),
    (claim9_single_insertion "fn main() \x7b\x7d".toList).2.1 (by decide)⟩

/-- Claim C10: a missing anchor file makes `add_memory_module_to_lib` return
`false` without writing, the same observable result as the already-declared
no-op case, and the surrounding run still processes (and here mutates) the
candidate files. -/
theorem claim10_missing_anchor :
    add_memory_module_to_lib none = (none, false) ∧
    add_memory_module_to_lib (some "pub mod memory;\npub mod a;".toList) =
      (some "pub mod memory;\npub mod a;".toList, false) ∧
    runMain true "src".toList none [exFileChanged] =
      some ((none, false),
        [({ exFileChanged with content := "use paraphym_candle::memory::x;".toList },
          true)]) :=
  ⟨rfl, by decide, by decide⟩
